import Mathlib

/-!
Verification of the combinatorial expression-generation engine of `equations.py`.

The Python source is shallowly embedded below:
* `parentheses_combos` (with its recursion on sub-ranges) is embedded with an
  explicit fuel argument equal to the range size; the recursion of the source
  strictly decreases the range size, so a fuel of `last - first` is exact.
* Python `frozenset`s of slot pairs are modelled as `Finset (ℕ × ℕ)`;
  the outer `set` of combinations is modelled as a `List` with `dedup `
  (set semantics; only membership matters to the properties below).
* Python's `more_itertools.partitions` (all splits of a list into contiguous
  non-empty groups) is `partitionsList`.
-/

/-- All partitions of a list into contiguous non-empty groups, in order
(`more_itertools.partitions`).  For a list of length `n` there are `2 ^ (n-1)`
of them. -/
def partitionsList : List ℕ → List (List (List ℕ))
  | [] => [[]]
  | [a] => [[[a]]]
  | a :: b :: rest =>
    (partitionsList (b :: rest)).flatMap (fun p =>
      match p with
      | [] => [[[a]]]
      | g :: gs => [([a] :: g :: gs), ((a :: g) :: gs)])

/-- `itertools.product(*alternatives)` followed by `frozenset.union(*combo)`:
the set of unions obtained by choosing one member from each alternative set. -/
def unionProduct : List (List (Finset (ℕ × ℕ))) → List (Finset (ℕ × ℕ))
  | [] => [∅]
  | alt :: rest => alt.flatMap (fun s => (unionProduct rest).map (fun t => s ∪ t))

/-- The alternatives recorded for one group of a partition (source lines 29-39):
the bare pair `(left, right)` spanning the group and, for groups of more than
2 elements, that pair unioned with each recursively found nested combination.
`pc_rec` is the recursive call `parentheses_combos(right, left)`. -/
def groupAlternatives (pc_rec : ℕ → ℕ → List (Finset (ℕ × ℕ))) (group : List ℕ) :
    List (Finset (ℕ × ℕ)) :=
  let left := group.headD 0
  let right := group.getLastD 0 + 1
  let base : Finset (ℕ × ℕ) := {(left, right)}
  base :: (if 2 < group.length then (pc_rec right left).map (fun sub => base ∪ sub) else [])

/-- All combinations contributed by one partition: the cartesian product over
the alternatives of its groups of at least 2 elements (groups of fewer than 2
elements are skipped, source line 31). -/
def partitionCombos (pc_rec : ℕ → ℕ → List (Finset (ℕ × ℕ))) (partition : List (List ℕ)) :
    List (Finset (ℕ × ℕ)) :=
  unionProduct ((partition.filter (fun g => decide (2 ≤ g.length))).map (groupAlternatives pc_rec))

/-- Fuel-indexed embedding of `parentheses_combos(last, first)`.  The source
recursion always calls itself on a strictly smaller range, so with
`fuel = last - first` the fuel is never exhausted and this computes exactly the
Python function. -/
def parentheses_combos_fuel : ℕ → ℕ → ℕ → List (Finset (ℕ × ℕ))
  | 0, _, _ => [∅]
  | fuel + 1, last, first =>
    let size := last - first
    (∅ :: ((partitionsList (List.range' first size)).filter
        (fun partition => decide (1 < partition.length) && decide (partition.length < size))).flatMap
      (fun partition => partitionCombos (fun r l => parentheses_combos_fuel fuel r l) partition)).dedup

/-- `parentheses_combos(last, first)` (the Python default is `first = 0`):
the set of all possible combinations of pairs of positions, relative to the
operands, where parentheses could go in a mathematical equation. -/
def parentheses_combos (last : ℕ) (first : ℕ) : List (Finset (ℕ × ℕ)) :=
  parentheses_combos_fuel (last - first) last first

/-!
The renderers (`parentheses`, `parentheses_with_unary`) and the assembler
(`equations`).  A Python `defaultdict(str)` keyed by render offset is modelled
as an association list built with `dictAppend` (`paras[k] += s`) and
`dictPrepend` (`paras[k] = s + paras[k]`); `reversed(sorted(paras.items()))`
is `sortDesc`.  Iteration over a `frozenset` has an implementation-defined
order in Python; the embedded renderers therefore take the set of bracket
pairs as an explicit list, and `equations` passes the canonical enumeration
`pairsList`.
-/

/-- `paras[k] += s` on a `defaultdict(str)`: append `s` to the entry at `k`,
creating it if absent. -/
def dictAppend (m : List (ℕ × String)) (k : ℕ) (s : String) : List (ℕ × String) :=
  match m with
  | [] => [(k, s)]
  | (k', s') :: rest => if k' = k then (k', s' ++ s) :: rest else (k', s') :: dictAppend rest k s

/-- `paras[k] = s + paras[k]` on a `defaultdict(str)`: prepend `s` to the entry
at `k`, creating it if absent. -/
def dictPrepend (m : List (ℕ × String)) (k : ℕ) (s : String) : List (ℕ × String) :=
  match m with
  | [] => [(k, s)]
  | (k', s') :: rest => if k' = k then (k', s ++ s') :: rest else (k', s') :: dictPrepend rest k s

/-- Insert one item into a list sorted by strictly descending key. -/
def insertSortedDesc (x : ℕ × String) : List (ℕ × String) → List (ℕ × String)
  | [] => [x]
  | y :: ys => if y.1 ≤ x.1 then x :: y :: ys else y :: insertSortedDesc x ys

/-- `list(reversed(sorted(m.items())))`: the entries sorted by descending key
(all keys produced by the renderers are distinct). -/
def sortDesc (m : List (ℕ × String)) : List (ℕ × String) :=
  m.foldr insertSortedDesc []

/-- Canonical enumeration of a `frozenset` of slot pairs (all of which lie in
`[0, length] × [0, length]`); Python's iteration order over a `frozenset` is
implementation-defined, so a concrete order must be chosen for the embedding. -/
def pairsList (length : ℕ) (s : Finset (ℕ × ℕ)) : List (ℕ × ℕ) :=
  ((List.range (length + 1)).flatMap
    (fun l => (List.range (length + 1)).map (fun r => (l, r)))).filter
    (fun p => decide (p ∈ s))

/-- `parentheses(para_combo)`: for each pair append `'('` at offset `left * 2`
and `')'` at offset `right * 2 - 1`, then reverse-sort by offset. -/
def parentheses (para_combo : List (ℕ × ℕ)) : List (ℕ × String) :=
  sortDesc (para_combo.foldl
    (fun m pair => dictAppend (dictAppend m (pair.1 * 2) "(") (pair.2 * 2 - 1) ")") [])

/-- `parentheses_with_unary(para_combo, para_combo2, unary, length,
single_positions)`: like `parentheses` but pairs selected in `para_combo2` open
with `name(` instead of `(`; the whole-expression pair `(0, length)` and
selected single-operand pairs are added around the existing tokens. -/
def parentheses_with_unary (para_combo : List (ℕ × ℕ)) (para_combo2 : Finset (ℕ × ℕ))
    (uname : String) (length : ℕ) (single_positions : List (ℕ × ℕ)) : List (ℕ × String) :=
  let paras := para_combo.foldl
    (fun m pair =>
      dictAppend
        (dictAppend m (pair.1 * 2) (if pair ∈ para_combo2 then uname ++ "(" else "("))
        (pair.2 * 2 - 1) ")")
    []
  let paras := if (0, length) ∈ para_combo2 then
      dictAppend (dictPrepend paras 0 (uname ++ "(")) (length * 2 - 1) ")"
    else paras
  let paras := (single_positions.filter (fun pair => decide (pair ∈ para_combo2))).foldl
    (fun m pair => dictPrepend (dictAppend m (pair.1 * 2) (uname ++ "(")) (pair.2 * 2 - 1) ")")
    paras
  sortDesc paras

/-- `more_itertools.roundrobin(xs, ys)`: alternate elements from the two lists
until both are exhausted (structural form of the round-robin interleaving). -/
def roundrobin : List String → List String → List String
  | [], ys => ys
  | x :: xs, [] => x :: xs
  | x :: xs, y :: ys => x :: y :: roundrobin xs ys

/-- Python `list.insert(index, tok)` (an index past the end appends). -/
def insertToken (eq : List String) (index : ℕ) (tok : String) : List String :=
  eq.take index ++ tok :: eq.drop index

/-- `for index, para in paras: eq.insert(index, para)`. -/
def spliceAll (paras : List (ℕ × String)) (eq : List String) : List String :=
  paras.foldl (fun e p => insertToken e p.1 p.2) eq

/-- `('**',) * k in more_itertools.windowed(combo, k)`: the operator assignment
contains `k` consecutive power operators.  (A window shorter than `k` is padded
with a non-operator fill value in the source and can never equal the all-power
tuple, which the `range` bound reproduces.) -/
def hasPowerRun (combo : List String) (k : ℕ) : Bool :=
  (List.range (combo.length + 1 - k)).any
    (fun i => decide ((combo.drop i).take k = List.replicate k "**"))

/-- The operator assignments that survive the `max_consecutive_powers` check
(source lines 62-63). -/
def allowedOpsCombos (operations_combos : List (List String)) (max_consecutive_powers : ℕ) :
    List (List String) :=
  operations_combos.filter (fun oc => !hasPowerRun oc (max_consecutive_powers + 1))

/-- `itertools.product(operations, repeat=k)` for `k ≥ 0`, leftmost position
varying slowest. -/
def productRepeat (operations : List String) : ℕ → List (List String)
  | 0 => [[]]
  | k + 1 => operations.flatMap (fun o => (productRepeat operations k).map (fun t => o :: t))

/-- `itertools.product(operations, repeat=k)` including the `ValueError` that
CPython raises when `repeat` is negative (which happens in `equations` when
the operand collection is empty, making `len(numbers) - 1 = -1`). -/
def productRepeatE (operations : List String) (k : ℤ) : Except String (List (List String)) :=
  if k < 0 then .error "repeat argument cannot be negative"
  else .ok (productRepeat operations k.toNat)

/-- The caller-supplied unary function, as the engine sees it: a display name
for rendering and whether it is `math.factorial` (the `unary is factorial`
identity test gating `max_factorials`). -/
structure UnaryFn where
  name : String
  isFactorial : Bool

/-- `more_itertools.powerset`: all subsets of a list (as sublists; the source
yields them in increasing-size order, which no property below depends on). -/
def powersetList : List (ℕ × ℕ) → List (List (ℕ × ℕ))
  | [] => [[]]
  | a :: rest => powersetList rest ++ (powersetList rest).map (fun t => a :: t)

/-- `equations(numbers, operations, unary, *, singles, insert_paras,
fixed_order, max_consecutive_powers, max_factorials)`.  Faults are surfaced as
`Except.error` (only the negative-`repeat` `ValueError` can occur).
`more_itertools.distinct_permutations` is modelled as `permutations.dedup`
(the same set of orderings; the source's generation order is not relied on). -/
def equations (numbers : List ℤ) (operations : List String) (unary : Option UnaryFn)
    (singles insert_paras fixed_order : Bool)
    (max_consecutive_powers max_factorials : ℕ) : Except String (List String) :=
  let length := numbers.length
  let number_combos := if fixed_order then [numbers.map (fun n => toString n)]
    else (numbers.map (fun n => toString n)).permutations.dedup
  match productRepeatE operations ((length : ℤ) - 1) with
  | .error msg => .error msg
  | .ok operations_combos =>
    let para_combos := if insert_paras then parentheses_combos length 0 else [∅]
    let whole : Finset (ℕ × ℕ) := {(0, length)}
    let single_positions : List (ℕ × ℕ) := (List.range length).map (fun i => (i, i + 1))
    .ok (number_combos.flatMap (fun number_combo =>
      (allowedOpsCombos operations_combos max_consecutive_powers).flatMap (fun operations_combo =>
        para_combos.flatMap (fun para_combo =>
          match unary with
          | none =>
            [String.join (spliceAll (parentheses (pairsList length para_combo))
              (roundrobin number_combo operations_combo))]
          | some u =>
            let anchors := if singles then pairsList length (para_combo ∪ whole ∪ single_positions.toFinset)
              else pairsList length (para_combo ∪ whole)
            (powersetList anchors).filterMap (fun pc2l =>
              if u.isFactorial && decide (max_factorials < pc2l.length) then none
              else some (String.join (spliceAll
                (parentheses_with_unary (pairsList length para_combo) pc2l.toFinset u.name length
                  single_positions)
                (roundrobin number_combo operations_combo))))))))

/-!
The evaluator/matcher.  The expression evaluator itself (Python's `eval`) is an
external collaborator of the engine (spec section 6), not code of this
repository, so `solve` is embedded parametrically in an evaluation function
`String → Option ℚ` whose `none` stands for exactly the faults the source
catches (`ZeroDivisionError`, `SyntaxError`, `TypeError`, `ValueError`,
`OverflowError`, `AttributeError`).  For concrete instances a small evaluator
`evalArith` is modelled from the spec below.
-/

/-- Token of an arithmetic expression string. -/
inductive Tok
  | num (n : ℕ)
  | plus
  | minus
  | star
  | slash
  | lparen
  | rparen
  deriving DecidableEq

/-- Read a run of decimal digits, most significant first. -/
def readDigits (acc : ℕ) : List Char → ℕ × List Char
  | [] => (acc, [])
  | c :: cs =>
    if c.isDigit then readDigits (acc * 10 + (c.toNat - 48)) cs else (acc, c :: cs)

/-- Tokenizer (fuelled; fuel bounded by the string length always suffices). -/
def tokenizeFuel : ℕ → List Char → Option (List Tok)
  | _, [] => some []
  | 0, _ :: _ => none
  | f + 1, c :: cs =>
    if c.isDigit then
      match readDigits (c.toNat - 48) cs with
      | (n, rest) => (tokenizeFuel f rest).map (fun ts => Tok.num n :: ts)
    else if c = '+' then (tokenizeFuel f cs).map (fun ts => Tok.plus :: ts)
    else if c = '-' then (tokenizeFuel f cs).map (fun ts => Tok.minus :: ts)
    else if c = '*' then (tokenizeFuel f cs).map (fun ts => Tok.star :: ts)
    else if c = '/' then (tokenizeFuel f cs).map (fun ts => Tok.slash :: ts)
    else if c = '(' then (tokenizeFuel f cs).map (fun ts => Tok.lparen :: ts)
    else if c = ')' then (tokenizeFuel f cs).map (fun ts => Tok.rparen :: ts)
    else none

/-- Addition of exact rationals, computed through `Rat.divInt` (which
normalises); the Batteries `Rat.add` is `@[irreducible]` and would block
evaluation of the concrete instances below, but computes the same value. -/
def qadd (a b : ℚ) : ℚ := Rat.divInt (a.num * b.den + b.num * a.den) (a.den * b.den)

/-- Subtraction of exact rationals through `Rat.divInt`. -/
def qsub (a b : ℚ) : ℚ := Rat.divInt (a.num * b.den - b.num * a.den) (a.den * b.den)

/-- Multiplication of exact rationals through `Rat.divInt`. -/
def qmul (a b : ℚ) : ℚ := Rat.divInt (a.num * b.num) (a.den * b.den)

/-- Division of exact rationals through `Rat.divInt` (callers rule out a zero
divisor first). -/
def qdiv (a b : ℚ) : ℚ := Rat.divInt (a.num * b.den) (a.den * b.num)

mutual

/-- Parse an atom: a numeric literal or a parenthesised expression. -/
def parseAtom : ℕ → List Tok → Option (ℚ × List Tok)
  | 0, _ => none
  | _ + 1, Tok.num n :: rest => some ((n : ℚ), rest)
  | f + 1, Tok.lparen :: rest =>
    match parseAdd f rest with
    | some (v, Tok.rparen :: rest') => some (v, rest')
    | _ => none
  | _ + 1, _ => none

/-- Parse a chain of `*` and `/` (left-associative; division by zero faults). -/
def parseMul : ℕ → List Tok → Option (ℚ × List Tok)
  | 0, _ => none
  | f + 1, ts =>
    match parseAtom f ts with
    | some (v, rest) => parseMulRest f v rest
    | none => none

/-- Continue a `*` and `/` chain with accumulated value `v`. -/
def parseMulRest : ℕ → ℚ → List Tok → Option (ℚ × List Tok)
  | 0, _, _ => none
  | f + 1, v, Tok.star :: rest =>
    match parseAtom f rest with
    | some (w, rest') => parseMulRest f (qmul v w) rest'
    | none => none
  | f + 1, v, Tok.slash :: rest =>
    match parseAtom f rest with
    | some (w, rest') => if w = 0 then none else parseMulRest f (qdiv v w) rest'
    | none => none
  | _ + 1, v, ts => some (v, ts)

/-- Parse a chain of `+` and `-` (left-associative). -/
def parseAdd : ℕ → List Tok → Option (ℚ × List Tok)
  | 0, _ => none
  | f + 1, ts =>
    match parseMul f ts with
    | some (v, rest) => parseAddRest f v rest
    | none => none

/-- Continue a `+` and `-` chain with accumulated value `v`. -/
def parseAddRest : ℕ → ℚ → List Tok → Option (ℚ × List Tok)
  | 0, _, _ => none
  | f + 1, v, Tok.plus :: rest =>
    match parseMul f rest with
    | some (w, rest') => parseAddRest f (qadd v w) rest'
    | none => none
  | f + 1, v, Tok.minus :: rest =>
    match parseMul f rest with
    | some (w, rest') => parseAddRest f (qsub v w) rest'
    | none => none
  | _ + 1, v, ts => some (v, ts)

end

/-- Modelled from the spec: the external "evaluation collaborator" (spec
section 6) that `solve` hands candidate expression strings to — Python's
`eval` is not code of this repository.  It evaluates `+ - * /` with the usual
precedence over exact rationals; a malformed expression or a division by zero
is a fault (`none`), which the engine must treat as "discard this candidate".
(The collaborator's further operators `% // ** .` and implicit concatenation
are not needed by any concrete instance proved here.) -/
def evalArith (s : String) : Option ℚ :=
  match tokenizeFuel (s.length + 1) s.toList with
  | none => none
  | some toks =>
    match parseAdd (toks.length * 3 + 3) toks with
    | some (v, []) => some v
    | _ => none

/-- One `hits[r].append(e)` step: append `e` to the list of the first entry
with key `r` (every `r` looked up is a key, so the fall-through cases are
unreachable in `solveWith`). -/
def updateAssoc : List (ℚ × List String) → ℚ → String → List (ℚ × List String)
  | [], _, _ => []
  | (g, l) :: rest, r, e =>
    if g = r then (g, l ++ [e]) :: rest else (g, l) :: updateAssoc rest r e

/-- First-entry lookup in the goal → expressions mapping (Python `dict`
lookup; `{goal: [] for goal in goals}` keeps the first of duplicate keys
relevant). -/
def lookupGoal : List (ℚ × List String) → ℚ → Option (List String)
  | [], _ => none
  | (g, l) :: rest, r => if g = r then some l else lookupGoal rest r

/-- The evaluation/matching loop of `solve` (source lines 154-163): initialise
`hits` with an empty list per goal, evaluate each candidate with the external
evaluator, silently discard faulting candidates (`except ...: continue`), and
append each expression whose value is a goal to that goal's list. -/
def solveWith (evalFn : String → Option ℚ) (goals : List ℚ) (eqs : List String) :
    List (ℚ × List String) :=
  eqs.foldl
    (fun hits eq =>
      match evalFn eq with
      | none => hits
      | some r => if r ∈ goals then updateAssoc hits r eq else hits)
    (goals.map (fun g => (g, ([] : List String))))

/-- `solve(goals, numbers, ...)`: generate all candidate equations and bucket
them by goal.  `goals` is already the normalised list (the source wraps a
scalar goal into a one-element list first).  Configuration faults raised by
`equations` propagate; evaluation faults never do. -/
def solve (evalFn : String → Option ℚ) (goals : List ℚ) (numbers : List ℤ)
    (operations : List String) (unary : Option UnaryFn)
    (singles insert_paras fixed_order : Bool)
    (max_consecutive_powers max_factorials : ℕ) : Except String (List (ℚ × List String)) :=
  match equations numbers operations unary singles insert_paras fixed_order
      max_consecutive_powers max_factorials with
  | .error msg => .error msg
  | .ok eqs => .ok (solveWith evalFn goals eqs)

-- Decidable equality for `Except`, to evaluate the embedded entry points on
-- concrete inputs.
deriving instance DecidableEq for Except

/-- All bracket pairs of a combination lie within `[first, last]`, span at
least 2 operands, and span strictly less than the whole range
(`p.2 + first < p.1 + last` is `p.2 - p.1 < last - first` without truncated
subtraction). -/
def PairsBounded (first last : ℕ) (c : Finset (ℕ × ℕ)) : Prop :=
  ∀ p ∈ c, first ≤ p.1 ∧ p.1 + 2 ≤ p.2 ∧ p.2 ≤ last ∧ p.2 + first < p.1 + last

/-- Any two distinct bracket pairs of a combination are disjoint or properly
nested (one interval contains the other); no partial overlap. -/
def WellNested (c : Finset (ℕ × ℕ)) : Prop :=
  ∀ p ∈ c, ∀ q ∈ c, p ≠ q →
    p.2 ≤ q.1 ∨ q.2 ≤ p.1 ∨ (p.1 ≤ q.1 ∧ q.2 ≤ p.2) ∨ (q.1 ≤ p.1 ∧ p.2 ≤ q.2)

theorem partitionsList_spec : ∀ (l : List ℕ) (part : List (List ℕ)),
    part ∈ partitionsList l → part.flatten = l ∧ ∀ g ∈ part, g ≠ [] := by
  intro l
  induction l with
  | nil =>
    intro part hp
    simp only [partitionsList, List.mem_singleton] at hp
    subst hp
    simp
  | cons a tl ih =>
    cases tl with
    | nil =>
      intro part hp
      simp only [partitionsList, List.mem_singleton] at hp
      subst hp
      simp
    | cons b rest =>
      intro part hp
      simp only [partitionsList, List.mem_flatMap] at hp
      obtain ⟨p, hpmem, hpart⟩ := hp
      obtain ⟨hjoin, hne⟩ := ih p hpmem
      cases p with
      | nil => simp at hjoin
      | cons g gs =>
        simp only [List.mem_cons, List.mem_singleton, List.not_mem_nil, or_false] at hpart
        rcases hpart with rfl | rfl
        · constructor
          · simpa using hjoin
          · intro g' hg'
            rcases List.mem_cons.mp hg' with rfl | h
            · simp
            · exact hne g' h
        · constructor
          · simp only [List.flatten_cons] at hjoin ⊢
            rw [List.cons_append, hjoin]
          · intro g' hg'
            rcases List.mem_cons.mp hg' with rfl | h
            · simp
            · exact hne g' (List.mem_cons_of_mem _ h)

theorem pairwise_groups_of_flatten : ∀ (L : List (List ℕ)),
    List.Pairwise (· < ·) L.flatten →
    (∀ g ∈ L, List.Pairwise (· < ·) g) ∧
      List.Pairwise (fun g1 g2 => ∀ x ∈ g1, ∀ y ∈ g2, x < y) L := by
  intro L
  induction L with
  | nil => simp
  | cons g gs ih =>
    intro h
    rw [List.flatten_cons, List.pairwise_append] at h
    obtain ⟨hg, hrest, hcross⟩ := h
    obtain ⟨h1, h2⟩ := ih hrest
    refine ⟨?_, ?_⟩
    · intro g' hg'
      rcases List.mem_cons.mp hg' with rfl | h
      · exact hg
      · exact h1 g' h
    · refine List.Pairwise.cons ?_ h2
      intro g' hg' x hx y hy
      exact hcross x hx y (List.mem_flatten.mpr ⟨g', hg', hy⟩)

theorem headD_mem_of_ne_nil : ∀ (g : List ℕ), g ≠ [] → g.headD 0 ∈ g := by
  intro g hg
  cases g with
  | nil => exact absurd rfl hg
  | cons a t => simp

theorem getLastD_mem : ∀ (g : List ℕ) (d : ℕ), g ≠ [] → g.getLastD d ∈ g := by
  intro g
  induction g with
  | nil => intro d hd; exact absurd rfl hd
  | cons a t ih =>
    intro d _
    cases t with
    | nil => simp
    | cons b t' =>
      rw [List.getLastD_cons]
      exact List.mem_cons_of_mem _ (ih a (by simp))

theorem le_getLastD_of_sorted : ∀ (g : List ℕ) (d : ℕ),
    List.Pairwise (· < ·) g → ∀ x ∈ g, x ≤ g.getLastD d := by
  intro g
  induction g with
  | nil => simp
  | cons a t ih =>
    intro d hpw x hx
    obtain ⟨ha, ht⟩ := List.pairwise_cons.mp hpw
    rw [List.getLastD_cons]
    cases t with
    | nil =>
      simp only [List.mem_singleton] at hx
      subst hx
      simp
    | cons b t' =>
      rcases List.mem_cons.mp hx with rfl | h
      · exact Nat.le_of_lt (Nat.lt_of_lt_of_le (ha b (by simp)) (ih _ ht b (by simp)))
      · exact ih a ht x h

theorem headD_le_of_sorted : ∀ (g : List ℕ),
    List.Pairwise (· < ·) g → ∀ x ∈ g, g.headD 0 ≤ x := by
  intro g hpw x hx
  cases g with
  | nil => simp at hx
  | cons a t =>
    obtain ⟨ha, _⟩ := List.pairwise_cons.mp hpw
    rcases List.mem_cons.mp hx with rfl | h
    · simp
    · exact Nat.le_of_lt (ha x h)

theorem headD_lt_getLastD_of_sorted : ∀ (g : List ℕ),
    List.Pairwise (· < ·) g → 2 ≤ g.length → g.headD 0 < g.getLastD 0 := by
  intro g hpw hlen
  cases g with
  | nil => simp at hlen
  | cons a t =>
    cases t with
    | nil => simp at hlen
    | cons b t' =>
      obtain ⟨ha, ht⟩ := List.pairwise_cons.mp hpw
      rw [List.headD_cons, List.getLastD_cons]
      exact Nat.lt_of_lt_of_le (ha b (by simp))
        (le_getLastD_of_sorted (b :: t') a ht b (by simp))

theorem groupAlternatives_cases (pc_rec : ℕ → ℕ → List (Finset (ℕ × ℕ))) (group : List ℕ)
    (s : Finset (ℕ × ℕ)) (hs : s ∈ groupAlternatives pc_rec group) :
    s = {(group.headD 0, group.getLastD 0 + 1)} ∨
      ∃ sub ∈ pc_rec (group.getLastD 0 + 1) (group.headD 0),
        s = {(group.headD 0, group.getLastD 0 + 1)} ∪ sub := by
  simp only [groupAlternatives] at hs
  by_cases h : 2 < group.length
  · rw [if_pos h] at hs
    rcases List.mem_cons.mp hs with rfl | hmap
    · exact Or.inl rfl
    · obtain ⟨sub, hsub, heq⟩ := List.mem_map.mp hmap
      exact Or.inr ⟨sub, hsub, heq.symm⟩
  · rw [if_neg h] at hs
    rcases List.mem_cons.mp hs with rfl | hmap
    · exact Or.inl rfl
    · simp at hmap

theorem unionProduct_sound (pc_rec : ℕ → ℕ → List (Finset (ℕ × ℕ))) (last first : ℕ)
    (hrec : ∀ l f c, c ∈ pc_rec l f → PairsBounded f l c ∧ WellNested c) :
    ∀ hs : List (List ℕ),
      (∀ g ∈ hs, 2 ≤ g.length ∧ List.Pairwise (· < ·) g ∧ first ≤ g.headD 0 ∧
        g.getLastD 0 < last ∧ g.getLastD 0 + 1 + first < g.headD 0 + last) →
      List.Pairwise (fun g1 g2 => g1.getLastD 0 < g2.headD 0) hs →
      ∀ c ∈ unionProduct (hs.map (groupAlternatives pc_rec)),
        (∀ p ∈ c, first ≤ p.1 ∧ p.1 + 2 ≤ p.2 ∧ p.2 ≤ last ∧ p.2 + first < p.1 + last ∧
          ∃ g ∈ hs, g.headD 0 ≤ p.1 ∧ p.2 ≤ g.getLastD 0 + 1) ∧
        WellNested c := by
  intro hs
  induction hs with
  | nil =>
    intro _ _ c hc
    simp only [List.map_nil, unionProduct, List.mem_singleton] at hc
    subst hc
    exact ⟨fun p hp => absurd hp (Finset.not_mem_empty p),
      fun p hp => absurd hp (Finset.not_mem_empty p)⟩
  | cons g gs ih =>
    intro hgood hord c hc
    simp only [List.map_cons, unionProduct, List.mem_flatMap, List.mem_map] at hc
    obtain ⟨s, hsmem, t, htmem, rfl⟩ := hc
    obtain ⟨hglen, hgsort, hgfirst, hglast, hgspan⟩ := hgood g (List.mem_cons_self g gs)
    have hlr : g.headD 0 < g.getLastD 0 := headD_lt_getLastD_of_sorted g hgsort hglen
    have hord' := List.pairwise_cons.mp hord
    have hs_local : (∀ p ∈ s, g.headD 0 ≤ p.1 ∧ p.1 + 2 ≤ p.2 ∧ p.2 ≤ g.getLastD 0 + 1) ∧
        WellNested s := by
      rcases groupAlternatives_cases pc_rec g s hsmem with rfl | ⟨sub, hsub, rfl⟩
      · constructor
        · intro p hp
          rw [Finset.mem_singleton] at hp
          subst hp
          exact ⟨le_refl _, by omega, le_refl _⟩
        · intro p hp q hq hpq
          rw [Finset.mem_singleton] at hp hq
          subst hp
          subst hq
          exact absurd rfl hpq
      · obtain ⟨hsubB, hsubN⟩ := hrec _ _ sub hsub
        constructor
        · intro p hp
          rcases Finset.mem_union.mp hp with hp1 | hp2
          · rw [Finset.mem_singleton] at hp1
            subst hp1
            exact ⟨le_refl _, by omega, le_refl _⟩
          · obtain ⟨h1, h2, h3, _⟩ := hsubB p hp2
            exact ⟨h1, h2, h3⟩
        · intro p hp q hq hpq
          rcases Finset.mem_union.mp hp with hp1 | hp2 <;>
            rcases Finset.mem_union.mp hq with hq1 | hq2
          · rw [Finset.mem_singleton] at hp1 hq1
            subst hp1
            subst hq1
            exact absurd rfl hpq
          · rw [Finset.mem_singleton] at hp1
            subst hp1
            obtain ⟨h1, _, h3, _⟩ := hsubB q hq2
            exact Or.inr (Or.inr (Or.inl ⟨h1, h3⟩))
          · rw [Finset.mem_singleton] at hq1
            subst hq1
            obtain ⟨h1, _, h3, _⟩ := hsubB p hp2
            exact Or.inr (Or.inr (Or.inr ⟨h1, h3⟩))
          · exact hsubN p hp2 q hq2 hpq
    have ht := ih (fun g' hg' => hgood g' (List.mem_cons_of_mem g hg')) hord'.2 t htmem
    constructor
    · intro p hp
      rcases Finset.mem_union.mp hp with hp1 | hp2
      · obtain ⟨h1, h2, h3⟩ := hs_local.1 p hp1
        refine ⟨le_trans hgfirst h1, h2, by omega, by omega,
          g, List.mem_cons_self g gs, h1, h3⟩
      · obtain ⟨h1, h2, h3, h4, g', hg', h5, h6⟩ := ht.1 p hp2
        exact ⟨h1, h2, h3, h4, g', List.mem_cons_of_mem g hg', h5, h6⟩
    · intro p hp q hq hpq
      rcases Finset.mem_union.mp hp with hp1 | hp2 <;>
        rcases Finset.mem_union.mp hq with hq1 | hq2
      · exact hs_local.2 p hp1 q hq1 hpq
      · obtain ⟨_, _, hp3⟩ := hs_local.1 p hp1
        obtain ⟨_, _, _, _, g', hg', h5, _⟩ := ht.1 q hq2
        have := hord'.1 g' hg'
        exact Or.inl (by omega)
      · obtain ⟨_, _, hq3⟩ := hs_local.1 q hq1
        obtain ⟨_, _, _, _, g', hg', h5, _⟩ := ht.1 p hp2
        have := hord'.1 g' hg'
        exact Or.inr (Or.inl (by omega))
      · exact ht.2 p hp2 q hq2 hpq

theorem parentheses_combos_fuel_sound :
    ∀ (fuel last first : ℕ) (c : Finset (ℕ × ℕ)),
      c ∈ parentheses_combos_fuel fuel last first →
      PairsBounded first last c ∧ WellNested c := by
  intro fuel
  induction fuel with
  | zero =>
    intro last first c hc
    simp only [parentheses_combos_fuel, List.mem_singleton] at hc
    subst hc
    exact ⟨fun p hp => absurd hp (Finset.not_mem_empty p),
      fun p hp => absurd hp (Finset.not_mem_empty p)⟩
  | succ fuel ih =>
    intro last first c hc
    simp only [parentheses_combos_fuel, List.mem_dedup, List.mem_cons, List.mem_flatMap,
      List.mem_filter, Bool.and_eq_true, decide_eq_true_eq] at hc
    rcases hc with rfl | ⟨partition, ⟨hpmem, hk1, hk2⟩, hc⟩
    · exact ⟨fun p hp => absurd hp (Finset.not_mem_empty p),
        fun p hp => absurd hp (Finset.not_mem_empty p)⟩
    · obtain ⟨hjoin, hne⟩ := partitionsList_spec _ _ hpmem
      have hsize : 3 ≤ last - first := by omega
      have hfl : first ≤ last := by omega
      have hflsize : first + (last - first) = last := Nat.add_sub_cancel' hfl
      have hpw : List.Pairwise (· < ·) partition.flatten := by
        rw [hjoin]
        exact List.pairwise_lt_range' first (last - first)
      obtain ⟨hg_sorted, hg_cross⟩ := pairwise_groups_of_flatten partition hpw
      have hmemrange : ∀ g ∈ partition, ∀ x ∈ g, first ≤ x ∧ x < last := by
        intro g hg x hx
        have hx' : x ∈ partition.flatten := List.mem_flatten.mpr ⟨g, hg, hx⟩
        rw [hjoin] at hx'
        have := List.mem_range'_1.mp hx'
        omega
      have hspan : ∀ g ∈ partition, g.getLastD 0 + 1 + first < g.headD 0 + last := by
        intro g hg
        cases partition with
        | nil => simp at hk1
        | cons p0 rest =>
          cases rest with
          | nil => simp at hk1
          | cons p1 ps =>
            have hcross := List.pairwise_cons.mp hg_cross
            rcases List.mem_cons.mp hg with rfl | hgr
            · have hp1ne : p1 ≠ [] := hne p1 (by simp)
              have hgne : g ≠ [] := hne g (by simp)
              have h1 : g.getLastD 0 < p1.headD 0 :=
                hcross.1 p1 (by simp) _ (getLastD_mem g 0 hgne) _ (headD_mem_of_ne_nil p1 hp1ne)
              have h2 : p1.headD 0 < last :=
                (hmemrange p1 (by simp) _ (headD_mem_of_ne_nil p1 hp1ne)).2
              have h3 : first ≤ g.headD 0 :=
                (hmemrange g (by simp) _ (headD_mem_of_ne_nil g hgne)).1
              omega
            · have hp0ne : p0 ≠ [] := hne p0 (by simp)
              have hgne : g ≠ [] := hne g (List.mem_cons_of_mem _ hgr)
              have h1 : p0.getLastD 0 < g.headD 0 :=
                hcross.1 g hgr _ (getLastD_mem p0 0 hp0ne) _ (headD_mem_of_ne_nil g hgne)
              have h2 : first ≤ p0.getLastD 0 :=
                (hmemrange p0 (by simp) _ (getLastD_mem p0 0 hp0ne)).1
              have h3 : g.getLastD 0 < last :=
                (hmemrange g (List.mem_cons_of_mem _ hgr) _ (getLastD_mem g 0 hgne)).2
              omega
      have hgood : ∀ g ∈ partition.filter (fun g => decide (2 ≤ g.length)),
          2 ≤ g.length ∧ List.Pairwise (· < ·) g ∧ first ≤ g.headD 0 ∧
            g.getLastD 0 < last ∧ g.getLastD 0 + 1 + first < g.headD 0 + last := by
        intro g hg
        have hgp := List.mem_of_mem_filter hg
        have hglen : 2 ≤ g.length := by simpa using List.of_mem_filter hg
        have hgne : g ≠ [] := hne g hgp
        refine ⟨hglen, hg_sorted g hgp, ?_, ?_, hspan g hgp⟩
        · exact (hmemrange g hgp _ (headD_mem_of_ne_nil g hgne)).1
        · exact (hmemrange g hgp _ (getLastD_mem g 0 hgne)).2
      have hordf : List.Pairwise (fun g1 g2 => g1.getLastD 0 < g2.headD 0)
          (partition.filter (fun g => decide (2 ≤ g.length))) := by
        refine List.Pairwise.sublist (List.filter_sublist partition) ?_
        refine List.Pairwise.imp_of_mem ?_ hg_cross
        intro g1 g2 h1 h2 hR
        exact hR _ (getLastD_mem g1 0 (hne g1 h1)) _ (headD_mem_of_ne_nil g2 (hne g2 h2))
      have hmain := unionProduct_sound (fun r l => parentheses_combos_fuel fuel r l) last first
        (fun l f c' hc' => ih l f c' hc') _ hgood hordf c (by
          rw [partitionCombos] at hc
          exact hc)
      refine ⟨fun p hp => ?_, hmain.2⟩
      obtain ⟨h1, h2, h3, h4, _⟩ := hmain.1 p hp
      exact ⟨h1, h2, h3, h4⟩

theorem empty_mem_parentheses_combos_fuel (fuel last first : ℕ) :
    ∅ ∈ parentheses_combos_fuel fuel last first := by
  cases fuel with
  | zero => simp [parentheses_combos_fuel]
  | succ fuel => simp [parentheses_combos_fuel]

theorem lookupGoal_updateAssoc_ne (m : List (ℚ × List String)) (r g : ℚ) (e : String)
    (hne : g ≠ r) : lookupGoal (updateAssoc m r e) g = lookupGoal m g := by
  induction m with
  | nil => rfl
  | cons x rest ih =>
    obtain ⟨k, lk⟩ := x
    by_cases hk : k = r
    · have hkg : ¬k = g := fun h => hne (h ▸ hk)
      simp only [updateAssoc, if_pos hk, lookupGoal, if_neg hkg]
    · simp only [updateAssoc, if_neg hk, lookupGoal]
      by_cases hkg : k = g
      · rw [if_pos hkg, if_pos hkg]
      · rw [if_neg hkg, if_neg hkg, ih]

theorem lookupGoal_updateAssoc_eq (m : List (ℚ × List String)) (r : ℚ) (e : String)
    (l : List String) (hl : lookupGoal m r = some l) :
    lookupGoal (updateAssoc m r e) r = some (l ++ [e]) := by
  induction m with
  | nil => simp [lookupGoal] at hl
  | cons x rest ih =>
    obtain ⟨k, lk⟩ := x
    by_cases hk : k = r
    · simp only [lookupGoal, if_pos hk] at hl
      simp only [updateAssoc, if_pos hk, lookupGoal, if_pos hk]
      rw [Option.some_inj] at hl
      rw [hl]
    · simp only [lookupGoal, if_neg hk] at hl
      simp only [updateAssoc, if_neg hk, lookupGoal, if_neg hk]
      exact ih hl

theorem lookupGoal_init (goals : List ℚ) (g : ℚ) (hg : g ∈ goals) :
    lookupGoal (goals.map (fun x => (x, ([] : List String)))) g = some [] := by
  induction goals with
  | nil => simp at hg
  | cons a rest ih =>
    simp only [List.map_cons, lookupGoal]
    by_cases ha : a = g
    · rw [if_pos ha]
    · rw [if_neg ha]
      refine ih ?_
      rcases List.mem_cons.mp hg with rfl | h
      · exact absurd rfl ha
      · exact h

theorem solveWith_fold (evalFn : String → Option ℚ) (goals : List ℚ) (g : ℚ) (hg : g ∈ goals) :
    ∀ (eqs : List String) (acc : List (ℚ × List String)) (l0 : List String),
      lookupGoal acc g = some l0 →
      lookupGoal
        (eqs.foldl
          (fun hits eq =>
            match evalFn eq with
            | none => hits
            | some r => if r ∈ goals then updateAssoc hits r eq else hits)
          acc) g =
        some (l0 ++ eqs.filter (fun e => decide (evalFn e = some g))) := by
  intro eqs
  induction eqs with
  | nil =>
    intro acc l0 h
    simpa using h
  | cons e rest ih =>
    intro acc l0 h
    simp only [List.foldl_cons, List.filter_cons]
    rcases hev : evalFn e with _ | r
    · rw [show decide ((none : Option ℚ) = some g) = false from by simp]
      simp only [Bool.false_eq_true, if_false]
      exact ih acc l0 h
    · show lookupGoal
          (List.foldl _ (if r ∈ goals then updateAssoc acc r e else acc) rest) g = _
      by_cases hr : r ∈ goals
      · rw [if_pos hr]
        by_cases hrg : r = g
        · subst hrg
          rw [show decide ((some r : Option ℚ) = some r) = true from by simp]
          simp only [if_true]
          have hrec := ih (updateAssoc acc r e) (l0 ++ [e])
            (lookupGoal_updateAssoc_eq acc r e l0 h)
          rw [hrec, List.append_assoc, List.singleton_append]
        · rw [show decide ((some r : Option ℚ) = some g) = false from by simp [hrg]]
          simp only [Bool.false_eq_true, if_false]
          have h' : lookupGoal (updateAssoc acc r e) g = some l0 := by
            rw [lookupGoal_updateAssoc_ne acc r g e (fun hgr => hrg hgr.symm)]
            exact h
          exact ih (updateAssoc acc r e) l0 h'
      · rw [if_neg hr]
        have hrg : r ≠ g := fun hrg => hr (hrg ▸ hg)
        rw [show decide ((some r : Option ℚ) = some g) = false from by simp [hrg]]
        simp only [Bool.false_eq_true, if_false]
        exact ih acc l0 h

/-- C1: for 4 operand slots the bracket-structure enumerator returns exactly
the 11 distinct structures (including the empty structure) over 4 slots:
`parentheses_combos(4)` equals the golden set. -/
theorem parentheses_combos_four_golden :
    (parentheses_combos 4 0).toFinset =
      ({∅, {(0, 2)}, {(0, 3)}, {(1, 3)}, {(1, 4)}, {(2, 4)}, {(0, 2), (0, 3)},
        {(0, 3), (1, 3)}, {(1, 3), (1, 4)}, {(1, 4), (2, 4)}, {(0, 2), (2, 4)}} :
        Finset (Finset (ℕ × ℕ))) ∧
    (parentheses_combos 4 0).toFinset.card = 11 := by
  constructor <;> decide

/-- C2: every structure returned by the bracket-structure enumerator is
well-nested: any two distinct pairs in a structure of `parentheses_combos n`
are disjoint or properly nested, never partially overlapping. -/
theorem parentheses_combos_wellNested (n : ℕ) (c : Finset (ℕ × ℕ))
    (hc : c ∈ parentheses_combos n 0) (p : ℕ × ℕ) (hp : p ∈ c) (q : ℕ × ℕ) (hq : q ∈ c)
    (hpq : p ≠ q) :
    p.2 ≤ q.1 ∨ q.2 ≤ p.1 ∨ (p.1 ≤ q.1 ∧ q.2 ≤ p.2) ∨ (q.1 ≤ p.1 ∧ p.2 ≤ q.2) :=
  (parentheses_combos_fuel_sound n n 0 c hc).2 p hp q hq hpq

/-- C2 witness: the structure `{(0,2),(0,3)}` of `parentheses_combos 4` has its
two pairs properly nested. -/
theorem parentheses_combos_wellNested_witness :
    ({(0, 2), (0, 3)} : Finset (ℕ × ℕ)) ∈ parentheses_combos 4 0 ∧
    ((0, 2) : ℕ × ℕ) ∈ ({(0, 2), (0, 3)} : Finset (ℕ × ℕ)) ∧
    ((0, 3) : ℕ × ℕ) ∈ ({(0, 2), (0, 3)} : Finset (ℕ × ℕ)) ∧
    ((0, 2) : ℕ × ℕ) ≠ (0, 3) ∧
    ((2 : ℕ) ≤ 0 ∨ (3 : ℕ) ≤ 0 ∨ ((0 : ℕ) ≤ 0 ∧ 3 ≤ 2) ∨ ((0 : ℕ) ≤ 0 ∧ 2 ≤ 3)) :=
  ⟨by decide, by decide, by decide, by decide,
    parentheses_combos_wellNested 4 {(0, 2), (0, 3)} (by decide) (0, 2) (by decide) (0, 3)
      (by decide) (by decide)⟩

/-- C3: for every `n` and every structure of `parentheses_combos n`, every
bracket pair `(l, r)` satisfies `0 ≤ l`, `l ≤ n`, `r ≤ n` and `r - l ≥ 2`
(stated additively as `l + 2 ≤ r`), and the empty structure is always a
member. -/
theorem parentheses_combos_pair_bounds (n : ℕ) (c : Finset (ℕ × ℕ))
    (hc : c ∈ parentheses_combos n 0) :
    (∀ p ∈ c, 0 ≤ p.1 ∧ p.1 ≤ n ∧ p.2 ≤ n ∧ p.1 + 2 ≤ p.2) ∧
    ∅ ∈ parentheses_combos n 0 := by
  constructor
  · intro p hp
    obtain ⟨h1, h2, h3, _⟩ := (parentheses_combos_fuel_sound n n 0 c hc).1 p hp
    exact ⟨Nat.zero_le _, by omega, h3, h2⟩
  · exact empty_mem_parentheses_combos_fuel n n 0

/-- C3 witness: the bounds hold for the structure `{(1,3)}` of
`parentheses_combos 3`. -/
theorem parentheses_combos_pair_bounds_witness :
    ({(1, 3)} : Finset (ℕ × ℕ)) ∈ parentheses_combos 3 0 ∧
    ((∀ p ∈ ({(1, 3)} : Finset (ℕ × ℕ)), 0 ≤ p.1 ∧ p.1 ≤ 3 ∧ p.2 ≤ 3 ∧ p.1 + 2 ≤ p.2) ∧
      ∅ ∈ parentheses_combos 3 0) :=
  ⟨by decide, parentheses_combos_pair_bounds 3 {(1, 3)} (by decide)⟩

/-- C4: the evaluation/matching loop of `solve` never fails on per-candidate
evaluation faults: for any evaluation collaborator, every goal of the goal
list is mapped to a result list, every expression in that list evaluated
exactly to the goal (so faulting candidates are silently discarded and never
appear), and a goal no candidate matches is mapped to the empty list rather
than an error. -/
theorem solveWith_discards_faults (evalFn : String → Option ℚ) (goals : List ℚ)
    (eqs : List String) (g : ℚ) (hg : g ∈ goals) :
    ∃ l, lookupGoal (solveWith evalFn goals eqs) g = some l ∧
      (∀ e ∈ l, evalFn e = some g) ∧
      (∀ e, evalFn e = none → e ∉ l) ∧
      ((∀ e ∈ eqs, evalFn e ≠ some g) → l = []) := by
  have h0 := lookupGoal_init goals g hg
  have hfold := solveWith_fold evalFn goals g hg eqs
    (goals.map (fun x => (x, ([] : List String)))) [] h0
  refine ⟨eqs.filter (fun e => decide (evalFn e = some g)), ?_, ?_, ?_, ?_⟩
  · unfold solveWith
    simpa using hfold
  · intro e he
    simpa using List.of_mem_filter he
  · intro e hnone hmem
    have := List.of_mem_filter hmem
    rw [hnone] at this
    simp at this
  · intro hall
    exact List.filter_eq_nil_iff.mpr (fun e he => by simpa using hall e he)

/-- C4 witness: with the modelled evaluator, the faulting candidate `1/0` is
discarded and only `1+5` reaches goal 6. -/
theorem solveWith_discards_faults_witness :
    (6 : ℚ) ∈ [(6 : ℚ)] ∧
    (∃ l, lookupGoal (solveWith evalArith [(6 : ℚ)] ["1/0", "1+5"]) 6 = some l ∧
      (∀ e ∈ l, evalArith e = some 6) ∧
      (∀ e, evalArith e = none → e ∉ l) ∧
      ((∀ e ∈ ["1/0", "1+5"], evalArith e ≠ some 6) → l = [])) :=
  ⟨by decide, solveWith_discards_faults evalArith [6] ["1/0", "1+5"] 6 (by decide)⟩

/-- C5: an operator assignment surviving the `max_consecutive_powers` filter
of `equations` never contains `max_consecutive_powers + 1` consecutive power
operators in any window; moreover the all-power assignment over three
operands is excluded, so the corresponding `equations` call generates
nothing. -/
theorem allowedOpsCombos_no_power_run (ocs : List (List String)) (m : ℕ)
    (oc : List String) (hoc : oc ∈ allowedOpsCombos ocs m) (i : ℕ) :
    (oc.drop i).take (m + 1) ≠ List.replicate (m + 1) "**" ∧
    equations [2, 2, 2] ["**"] none false true true 1 1 = .ok [] := by
  refine ⟨?_, by decide⟩
  intro heq
  have hrun := List.of_mem_filter hoc
  rw [Bool.not_eq_true'] at hrun
  have hlen : i + (m + 1) ≤ oc.length := by
    have hl := congrArg List.length heq
    simp only [List.length_take, List.length_drop, List.length_replicate, inf_eq_min,
      Nat.min_def] at hl
    split at hl <;> omega
  have htrue : hasPowerRun oc (m + 1) = true := by
    unfold hasPowerRun
    rw [List.any_eq_true]
    exact ⟨i, List.mem_range.mpr (by omega), by simpa using heq⟩
  rw [htrue] at hrun
  simp at hrun

/-- C5 witness: the assignment `["+","+"]` survives the filter with
`max_consecutive_powers = 1` and indeed has no window of two powers. -/
theorem allowedOpsCombos_no_power_run_witness :
    (["+", "+"] ∈ allowedOpsCombos [["+", "+"], ["**", "**"]] 1) ∧
    (((["+", "+"] : List String).drop 0).take 2 ≠ List.replicate 2 "**" ∧
      equations [2, 2, 2] ["**"] none false true true 1 1 = .ok []) :=
  ⟨by decide, allowedOpsCombos_no_power_run [["+", "+"], ["**", "**"]] 1 ["+", "+"]
    (by decide) 0⟩

/-- C6 (amended): an empty operand collection makes `equations` (and hence
`solve`, which calls it outside any handler) fail fast with the `ValueError`
raised by `itertools.product` on the negative `repeat = len(numbers) - 1`;
but an empty operator alphabet with more than one operand does NOT error —
it silently yields an empty result list. -/
theorem equations_config_fail_fast :
    (∀ (operations : List String) (unary : Option UnaryFn)
      (singles insert_paras fixed_order : Bool) (mcp mf : ℕ),
      equations [] operations unary singles insert_paras fixed_order mcp mf =
        .error "repeat argument cannot be negative") ∧
    equations [1, 2] [] none false true true 1 1 = .ok [] :=
  ⟨fun _ _ _ _ _ _ _ => rfl, by decide⟩

/-- C6 counterexample: with two operands and an empty operator alphabet,
`equations` returns an empty list of equations, not the claimed fail-fast
configuration error. -/
theorem equations_empty_operator_alphabet_no_error :
    equations [1, 2] [] none false true true 1 1 = .ok [] := by decide

/-- C7: the whole-expression pair `(0, n)` is never a member of any structure
returned by the top-level `parentheses_combos n`. -/
theorem parentheses_combos_no_whole_pair (n : ℕ) (c : Finset (ℕ × ℕ))
    (hc : c ∈ parentheses_combos n 0) : (0, n) ∉ c := by
  intro h
  obtain ⟨_, _, _, h4⟩ := (parentheses_combos_fuel_sound n n 0 c hc).1 (0, n) h
  omega

/-- C7 witness: `(0,4)` is not in the structure `{(0,2)}` of
`parentheses_combos 4`. -/
theorem parentheses_combos_no_whole_pair_witness :
    ({(0, 2)} : Finset (ℕ × ℕ)) ∈ parentheses_combos 4 0 ∧
    ((0, 4) : ℕ × ℕ) ∉ ({(0, 2)} : Finset (ℕ × ℕ)) :=
  ⟨by decide, parentheses_combos_no_whole_pair 4 {(0, 2)} (by decide)⟩

/-- C8: evaluation of the unary renderer at the failing input.  For the
structure `{(0,2),(0,3)}` with unary selection `{(0,3)}` over 4 operands, the
concatenation order at the shared open offset 0 follows the order in which
the structure's pairs are iterated (a `frozenset` iteration, whose order is
implementation-defined), not nesting depth: iterating the inner pair `(0,2)`
first yields the offset-0 token `"(f("` — the outer pair's `f(` does NOT
precede the inner `(` — and the spliced expression applies `f` to the inner
span `(1+2)` instead of its selected span `(1+2)+3`; only the outer-first
iteration order produces the claimed render. -/
theorem parentheses_with_unary_order_dependent :
    parentheses_with_unary [(0, 2), (0, 3)] {(0, 3)} "f" 4 [] =
      [(5, ")"), (3, ")"), (0, "(f(")] ∧
    String.join (spliceAll (parentheses_with_unary [(0, 2), (0, 3)] {(0, 3)} "f" 4 [])
      (roundrobin ["1", "2", "3", "4"] ["+", "+", "+"])) = "(f(1+2)+3)+4" ∧
    parentheses_with_unary [(0, 3), (0, 2)] {(0, 3)} "f" 4 [] =
      [(5, ")"), (3, ")"), (0, "f((")] ∧
    String.join (spliceAll (parentheses_with_unary [(0, 3), (0, 2)] {(0, 3)} "f" 4 [])
      (roundrobin ["1", "2", "3", "4"] ["+", "+", "+"])) = "f((1+2)+3)+4" := by
  refine ⟨by decide, by decide, by decide, by decide⟩

/-- C9: for `numbers = [1,2,3]`, `operations = "+-*/"`, `fixed_order = True`
and goal 6, the result list for goal 6 contains `"1+2+3"`, does not contain
`"3+2+1"`, and indeed every expression in it uses the operands in the fixed
given order (its digit subsequence is exactly `1, 2, 3`). -/
theorem solve_fixed_order_123_goal6 :
    solve evalArith [6] [1, 2, 3] ["+", "-", "*", "/"] none false true true 1 1 =
      .ok [((6 : ℚ), ["1+2+3", "(1+2)+3", "1+(2+3)", "1*2*3", "(1*2)*3", "1*(2*3)"])] ∧
    "1+2+3" ∈ ["1+2+3", "(1+2)+3", "1+(2+3)", "1*2*3", "(1*2)*3", "1*(2*3)"] ∧
    "3+2+1" ∉ ["1+2+3", "(1+2)+3", "1+(2+3)", "1*2*3", "(1*2)*3", "1*(2*3)"] ∧
    ∀ e ∈ ["1+2+3", "(1+2)+3", "1+(2+3)", "1*2*3", "(1*2)*3", "1*(2*3)"],
      e.toList.filter (fun ch => ch.isDigit) = ['1', '2', '3'] := by
  exact ⟨by decide, by decide, by decide, by decide⟩

/-- C10: for every operand count `n ≤ 2` the enumerator returns only the empty
structure, and consequently a two-operand `equations` call with
parenthesisation enabled generates no parenthesised expression at all. -/
theorem parentheses_combos_small_singleton (n : ℕ) (hn : n ≤ 2) :
    parentheses_combos n 0 = [∅] ∧
    equations [1, 2] ["+", "-", "*", "/"] none false true true 1 1 =
      .ok ["1+2", "1-2", "1*2", "1/2"] := by
  refine ⟨?_, by decide⟩
  interval_cases n <;> decide

/-- C10 witness: instance at `n = 2`. -/
theorem parentheses_combos_small_singleton_witness :
    (2 : ℕ) ≤ 2 ∧
    (parentheses_combos 2 0 = [∅] ∧
      equations [1, 2] ["+", "-", "*", "/"] none false true true 1 1 =
        .ok ["1+2", "1-2", "1*2", "1/2"]) :=
  ⟨by decide, parentheses_combos_small_singleton 2 (by decide)⟩
